import Mathlib

/-!
Verification development for the transcript chunking and multi-strategy
retrieval core of the Ai-video-tutor backend.

The Python source is embedded shallowly:
* timestamps and durations (Python floats) are modelled as rationals `ℚ`;
* Python strings are Lean `String`s (all texts involved are ASCII);
* the `re` patterns used by the chunker are embedded through a small
  backtracking matcher (`Re`, `matchHere`, `findallRe`, `subAll`) that
  mirrors Python's leftmost / greedy / non-overlapping semantics for the
  constructs the source actually uses (`\b`, `\w+`, `\s+`, `\s*`,
  literals, alternation of literals, one optional group, one capture);
* `datetime.utcnow()` is modelled by an explicit clock argument `now : ℕ`
  stamped into `created_at`;
* the external ChromaDB collection, the embedding service and the vector
  index are black boxes, modelled as explicit response data / functions.
-/

/- ### Characters and elementary string helpers -/

/-- The ASCII apostrophe, built from its code so the source text stays plain. -/
def aposC : Char := Char.ofNat 39

/-- The apostrophe as a one-character string. -/
def apos : String := String.singleton aposC

/-- Python's `\w` character class (ASCII fragment): letters, digits, underscore. -/
def isWordChar (c : Char) : Bool := c.isAlphanum || c = '_'

/-- Python's `\s` character class (ASCII fragment). -/
def isSpaceChar (c : Char) : Bool :=
  c = ' ' || c = '\t' || c = '\n' || c = '\r' || c = Char.ofNat 11 || c = Char.ofNat 12

/-- Whether the second list begins with the first. -/
def isPre : List Char → List Char → Bool
  | [], _ => true
  | _ :: _, [] => false
  | a :: as, b :: bs => a = b && isPre as bs

/-- Some position of `hay` starts with `needle` (Python's `needle in hay`). -/
def listHas (needle : List Char) : List Char → Bool
  | [] => isPre needle []
  | c :: cs => isPre needle (c :: cs) || listHas needle cs

/-- Python `needle in hay` on strings. -/
def strHas (hay needle : String) : Bool := listHas needle.data hay.data

/-- Python `s.startswith(p)`. -/
def strStarts (s p : String) : Bool := isPre p.data s.data

/-- Python `str.lower` (ASCII). -/
def pyLower (s : String) : String := String.mk (s.data.map Char.toLower)

/-- Python `str.strip()`: drop leading and trailing whitespace. -/
def pyStrip (s : String) : String :=
  String.mk (((s.data.dropWhile isSpaceChar).reverse.dropWhile isSpaceChar).reverse)

/-- Python `str.split()` (split on whitespace runs, no empty items). -/
def splitWsAux : List Char → List Char → List String
  | [], acc => if acc.isEmpty then [] else [String.mk acc.reverse]
  | c :: cs, acc =>
    if isSpaceChar c then
      if acc.isEmpty then splitWsAux cs [] else String.mk acc.reverse :: splitWsAux cs []
    else splitWsAux cs (c :: acc)

/-- Python `str.split()`. -/
def pySplitWs (s : String) : List String := splitWsAux s.data []

/-- Python `" ".join(parts)`. -/
def joinSpace : List String → String
  | [] => ""
  | [t] => t
  | t :: ts => t ++ " " ++ joinSpace ts

/-- Python `s.split(",")`. -/
def splitCommaAux : List Char → List Char → List String
  | [], acc => [String.mk acc.reverse]
  | c :: cs, acc =>
    if c = ',' then String.mk acc.reverse :: splitCommaAux cs []
    else splitCommaAux cs (c :: acc)

/-- Python `s.split(",")`. -/
def pySplitComma (s : String) : List String := splitCommaAux s.data []

/-- Python `str.isalpha()`: non-empty and all alphabetic (ASCII fragment). -/
def pyIsAlpha (s : String) : Bool := !s.data.isEmpty && s.data.all Char.isAlpha

/- ### A small backtracking regex engine

Covers exactly the constructs appearing in the source patterns:
literals, `\w+`, `\s+`, `\s*`, alternation, an optional piece, the
word-boundary assertion `\b` and a single capturing group. -/

inductive Re where
  | lit : List Char → Re
  | plusCls : (Char → Bool) → Re
  | starCls : (Char → Bool) → Re
  | seqR : Re → Re → Re
  | altR : Re → Re → Re
  | optR : Re → Re
  | wordB : Re
  | grp : Re → Re

/-- The character preceding the current position after consuming `c` (for `\b`). -/
def lastOf (c : List Char) (prev : Option Char) : Option Char :=
  match c.getLast? with
  | some x => some x
  | none => prev

/-- Is there a word boundary between `prev` and the head of `s`? -/
def atBoundary (prev : Option Char) (s : List Char) : Bool :=
  let pw := match prev with | some c => isWordChar c | none => false
  let nw := match s.head? with | some c => isWordChar c | none => false
  pw != nw

/-- Greedy run: try consuming `n`, then `n-1`, ... down to `lo` characters of `s`
(all already known to satisfy the class). -/
def tryRun {α : Type} (s : List Char) (prev : Option Char) (lo : ℕ)
    (k : List Char → Option (List Char) → Option Char → List Char → Option α) :
    ℕ → Option α
  | 0 => if lo = 0 then k [] none prev s else none
  | n + 1 =>
    (if lo ≤ n + 1 then
      let taken := s.take (n + 1)
      k taken none (lastOf taken prev) (s.drop (n + 1))
    else none).orElse (fun _ => tryRun s prev lo k n)

/-- Backtracking matcher in continuation style.  The continuation receives the
consumed characters, the capture of the (single) group if any, the new
preceding character and the rest of the input. -/
def mrun {α : Type} :
    Re → Option Char → List Char →
    (List Char → Option (List Char) → Option Char → List Char → Option α) → Option α
  | .lit cs, prev, s, k =>
    if isPre cs s then k cs none (lastOf cs prev) (s.drop cs.length) else none
  | .plusCls p, prev, s, k => tryRun s prev 1 k (s.takeWhile p).length
  | .starCls p, prev, s, k => tryRun s prev 0 k (s.takeWhile p).length
  | .seqR a b, prev, s, k =>
    mrun a prev s (fun c1 g1 prev1 s1 =>
      mrun b prev1 s1 (fun c2 g2 prev2 s2 => k (c1 ++ c2) (g1.orElse (fun _ => g2)) prev2 s2))
  | .altR a b, prev, s, k =>
    (mrun a prev s k).orElse (fun _ => mrun b prev s k)
  | .optR a, prev, s, k =>
    (mrun a prev s k).orElse (fun _ => k [] none prev s)
  | .wordB, prev, s, k => if atBoundary prev s then k [] none prev s else none
  | .grp a, prev, s, k => mrun a prev s (fun c _ prev1 s1 => k c (some c) prev1 s1)

/-- Attempt a match anchored at the current position. -/
def matchHere (r : Re) (prev : Option Char) (s : List Char) :
    Option (List Char × Option (List Char) × List Char) :=
  mrun r prev s (fun c g _ rest => some (c, g, rest))

/-- Python `re.findall` driver: leftmost, non-overlapping, resuming after each
match (an empty match advances one character).  Returns for each match the
matched text and the group capture. -/
def findallAux (r : Re) : ℕ → Option Char → List Char → List (List Char × Option (List Char))
  | 0, _, _ => []
  | fuel + 1, prev, s =>
    match matchHere r prev s with
    | some (c, g, rest) =>
      if c.isEmpty then
        (c, g) :: (match s with
          | [] => []
          | x :: xs => findallAux r fuel (some x) xs)
      else (c, g) :: findallAux r fuel (lastOf c prev) rest
    | none =>
      match s with
      | [] => []
      | x :: xs => findallAux r fuel (some x) xs

/-- Python `re.findall(pattern, s)` (with the group capture per match). -/
def findallRe (r : Re) (s : String) : List (List Char × Option (List Char)) :=
  findallAux r (s.data.length + 1) none s.data

/-- Python `re.search(pattern, s)` viewed as a Boolean. -/
def searchB (r : Re) (s : String) : Bool := !(findallRe r s).isEmpty

/-- Python `re.sub(pattern, "", s)`: delete all non-overlapping matches.
Boundary assertions see the characters of the original string. -/
def subAllAux (r : Re) : ℕ → Option Char → List Char → List Char
  | 0, _, s => s
  | fuel + 1, prev, s =>
    match matchHere r prev s with
    | some (c, _, rest) =>
      if c.isEmpty then
        match s with
        | [] => []
        | x :: xs => x :: subAllAux r fuel (some x) xs
      else subAllAux r fuel (lastOf c prev) rest
    | none =>
      match s with
      | [] => []
      | x :: xs => x :: subAllAux r fuel (some x) xs

/-- Python `re.sub(pattern, "", s)`. -/
def subAll (r : Re) (s : String) : String :=
  String.mk (subAllAux r (s.data.length + 1) none s.data)

/-- Shorthand: sequence of several pieces. -/
def reSeq : List Re → Re
  | [] => .lit []
  | [r] => r
  | r :: rs => .seqR r (reSeq rs)

/-- Class run `\s+`. -/
def reSp : Re := .plusCls isSpaceChar

/-- Class run `\w+`. -/
def reW : Re := .plusCls isWordChar

/-- A literal given as a string. -/
def reL (s : String) : Re := .lit s.data

/- ### The source's fixed pattern vocabulary (chunker.py) -/

/-- Source `self.topic_markers` from `SemanticChunker.__init__`. -/
def topic_markers : List String :=
  ["now let" ++ apos ++ "s", "next,", "moving on", "another",
   "first,", "second,", "third,", "finally,",
   "in conclusion", "the next thing", "here" ++ apos ++ "s",
   "so basically", "let me explain", "what is",
   "to understand", "the key", "importantly",
   "however,", "but,", "on the other hand",
   "for example", "let" ++ apos ++ "s look at", "consider"]

/-- One definitional pattern: the regex together with whether `re.findall`
reports the capture group (patterns with a group yield the group, the others
yield the whole match). -/
structure DefPattern where
  re : Re
  hasGroup : Bool

/-- Source `self.definitional_patterns` from `SemanticChunker.__init__`:
`\b(\w+)\s+is\s+(a|an|the)\s+`, `\bwhat\s+is\s+`, `\bdefined\s+as\b`,
`\bmeans\s+that\b`, `\brefers\s+to\b`, `\bbasically\b`,
`\bin\s+simple\s+terms\b`, `\bwe\s+call\s+this\b`, `\bthis\s+is\s+called\b`.
The first group of the first pattern is the captured term; the second group
`(a|an|the)` is never consulted by the source (`match[0]`), so only the first
capture is tracked. -/
def definitional_patterns : List DefPattern :=
  [⟨reSeq [.wordB, .grp reW, reSp, reL "is", reSp,
      .altR (reL "a") (.altR (reL "an") (reL "the")), reSp], true⟩,
   ⟨reSeq [.wordB, reL "what", reSp, reL "is", reSp], false⟩,
   ⟨reSeq [.wordB, reL "defined", reSp, reL "as", .wordB], false⟩,
   ⟨reSeq [.wordB, reL "means", reSp, reL "that", .wordB], false⟩,
   ⟨reSeq [.wordB, reL "refers", reSp, reL "to", .wordB], false⟩,
   ⟨reSeq [.wordB, reL "basically", .wordB], false⟩,
   ⟨reSeq [.wordB, reL "in", reSp, reL "simple", reSp, reL "terms", .wordB], false⟩,
   ⟨reSeq [.wordB, reL "we", reSp, reL "call", reSp, reL "this", .wordB], false⟩,
   ⟨reSeq [.wordB, reL "this", reSp, reL "is", reSp, reL "called", .wordB], false⟩]

/-- The extra pattern of `_is_foundational`:
`\b(this|these)\s+(?:is|are)\s+(?:a|an|the)?\s*\w+` (all groups unused). -/
def thisIsPattern : Re :=
  reSeq [.wordB, .altR (reL "this") (reL "these"), reSp,
    .altR (reL "is") (reL "are"), reSp,
    .optR (.altR (reL "a") (.altR (reL "an") (reL "the"))), .starCls isSpaceChar, reW]

/-- The filler vocabulary of `_clean_for_embedding`. -/
def fillers : List String :=
  ["um", "uh", "like", "you know", "basically",
   "actually", "literally", "right", "okay", "so",
   "well", "i mean", "kind of", "sort of"]

/- ### Data model (models/transcript.py) -/

/-- Model of `RawSegment`: raw transcript segment. -/
structure RawSegment where
  text : String
  start : ℚ
  duration : ℚ
deriving DecidableEq, Repr

/-- The derived `end` property (`start + duration`). -/
def RawSegment.endPos (s : RawSegment) : ℚ := s.start + s.duration

/-- Model of `TranscriptChunk` (the fields the chunker sets; `embedding` stays `none`
and `created_at` carries the clock reading passed for `datetime.utcnow()`). -/
structure TranscriptChunk where
  chunk_id : String
  video_id : String
  sequence : ℕ
  start_time : ℚ
  end_time : ℚ
  duration : ℚ
  text : String
  text_cleaned : String
  key_terms : List String
  is_foundational : Bool
  embedding : Option (List ℚ)
  created_at : ℕ
deriving DecidableEq, Repr

/-- Well-formed fragment input: every duration is non-negative and the starts
are non-decreasing (spec §3, RawFragment). -/
def WellFormedSegs (segs : List RawSegment) : Prop :=
  (∀ s ∈ segs, 0 ≤ s.duration) ∧ List.Pairwise (fun a b => a.start ≤ b.start) segs

instance (segs : List RawSegment) : Decidable (WellFormedSegs segs) :=
  inferInstanceAs (Decidable ((∀ s ∈ segs, 0 ≤ s.duration) ∧
    List.Pairwise (fun a b : RawSegment => a.start ≤ b.start) segs))

/- ### Decimal rendering (Python `str` of ints and `f"{x:.1f}"`) -/

/-- Decimal digits with explicit recursion depth (structural, so that it
evaluates by kernel reduction). -/
def natDigitsAux : ℕ → ℕ → List Char
  | 0, _ => []
  | fuel + 1, n =>
    if n < 10 then [Nat.digitChar n]
    else natDigitsAux fuel (n / 10) ++ [Nat.digitChar (n % 10)]

/-- Decimal digits of a natural number, most significant first. -/
def natDigits (n : ℕ) : List Char := natDigitsAux (n + 1) n

/-- Python `str` of a natural number. -/
def natStr (n : ℕ) : String := String.mk (natDigits n)

/-- Round a rational to the nearest integer, ties to even — the idealized
rounding of IEEE-double `%.1f` formatting once scaled by ten.  Written with
integer arithmetic on `num`/`den` (`r` is the remainder of the floor
division, so `frac = r/den` and the half-way test compares `2r` with `den`). -/
def roundHalfEven (x : ℚ) : ℤ :=
  let fl := Int.fdiv x.num x.den
  let r := x.num - fl * x.den
  if 2 * r > (x.den : ℤ) then fl + 1
  else if 2 * r < (x.den : ℤ) then fl
  else if fl % 2 = 0 then fl else fl + 1

/-- Python `f"{q:.1f}"`, idealized to exact rationals: one digit after the
point, round half to even. -/
def fmtTenths (q : ℚ) : String :=
  let n := roundHalfEven (10 * q)
  let m := n.natAbs
  (if n < 0 then "-" else "") ++ natStr (m / 10) ++ "." ++ natStr (m % 10)

/-- The chunk id `f"{video_id}_{start:.1f}_{sequence}"`. -/
def mkChunkId (video_id : String) (start : ℚ) (sequence : ℕ) : String :=
  video_id ++ "_" ++ fmtTenths start ++ "_" ++ natStr sequence

/- ### SemanticChunker (services/transcript/chunker.py) -/

/-- The chunker with its resolved configuration (the constructor's
`value or settings.DEFAULT` resolution happens before `chunk` runs). -/
structure SemanticChunker where
  video_id : String
  target_duration : ℚ
  min_duration : ℚ
  max_duration : ℚ
  overlap_duration : ℚ

namespace SemanticChunker

/-- Source `_is_natural_boundary`: the lowercased, stripped text starts with one of
the fixed topic markers. -/
def is_natural_boundary (text : String) : Bool :=
  let text_lower := pyStrip (pyLower text)
  topic_markers.any (fun marker => strStarts text_lower marker)

/-- One candidate term per `re.findall` match: the first group for the
pattern with groups, the whole match otherwise (`match[0] if tuple else match`). -/
def patternTerms (p : DefPattern) (textLower : String) : List String :=
  (findallRe p.re textLower).map (fun m =>
    if p.hasGroup then
      match m.2 with
      | some g => String.mk g
      | none => ""
    else String.mk m.1)

/-- The capitalized-word scan of `_extract_key_terms`: for each word not at a
sentence start whose first character is upper case and whose length exceeds
two, keep `re.sub(r"[^a-zA-Z]", "", word)` lowered, unless already collected. -/
def capTermsLoop : List String → Option String → List String → List String
  | [], _, terms => terms
  | word :: rest, prevWord, terms =>
    let is_sentence_start :=
      match prevWord with
      | none => true
      | some pw => pw.data.getLast? = some '.' || pw.data.getLast? = some '!' ||
          pw.data.getLast? = some '?'
    let terms' :=
      if !is_sentence_start &&
          (match word.data.head? with | some c => c.isUpper | none => false) &&
          word.data.length > 2 then
        let clean_word := String.mk (word.data.filter Char.isAlpha)
        if !clean_word.data.isEmpty && !terms.contains (pyLower clean_word) then
          terms ++ [pyLower clean_word]
        else terms
      else terms
    capTermsLoop rest (some word) terms'

/-- In-order deduplication (the `seen` loop of `_extract_key_terms`). -/
def dedupKeep : List String → List String → List String
  | [], _ => []
  | t :: ts, seen =>
    if seen.contains t then dedupKeep ts seen else t :: dedupKeep ts (seen ++ [t])

/-- Source `_extract_key_terms`. -/
def extract_key_terms (text : String) : List String :=
  let textLower := pyLower text
  let patTerms :=
    definitional_patterns.foldl (fun acc p =>
      acc ++ (patternTerms p textLower).filter
        (fun term => term.data.length > 2 && pyIsAlpha term)) []
  let terms := capTermsLoop (pySplitWs text) none patTerms
  (dedupKeep terms []).take 10

/-- Source `_is_foundational` (the `key_terms` parameter is unused by the source). -/
def is_foundational (text : String) : Bool :=
  let text_lower := pyLower text
  definitional_patterns.any (fun p => searchB p.re text_lower) ||
    searchB thisIsPattern text_lower

/-- Source `_clean_for_embedding`: lowercase, delete each filler as a
word-boundary-delimited pattern, collapse whitespace, strip. -/
def clean_for_embedding (text : String) : String :=
  let lowered := pyLower text
  let stripped := fillers.foldl
    (fun t filler => subAll (reSeq [.wordB, reL filler, .wordB]) t) lowered
  pyStrip (joinSpace (pySplitWs stripped))

/-- Source `_create_chunk`. -/
def create_chunk (c : SemanticChunker) (now : ℕ) (text : String)
    (start stop : ℚ) (sequence : ℕ) : TranscriptChunk :=
  let text := pyStrip text
  { chunk_id := mkChunkId c.video_id start sequence
    video_id := c.video_id
    sequence := sequence
    start_time := start
    end_time := stop
    duration := stop - start
    text := text
    text_cleaned := clean_for_embedding text
    key_terms := extract_key_terms text
    is_foundational := is_foundational text
    embedding := none
    created_at := now }

/-- The scan that seeds the overlap window after a split: all segments with
`seg.start ≥ overlap_start` and `seg.end ≤ current_end`, with the loop's
early `break` once `seg.start > current_end`. -/
def overlapScan (overlap_start current_end : ℚ) : List RawSegment → List String
  | [] => []
  | seg :: rest =>
    if seg.start ≥ overlap_start ∧ seg.endPos ≤ current_end then
      seg.text :: overlapScan overlap_start current_end rest
    else if seg.start > current_end then []
    else overlapScan overlap_start current_end rest

/-- The loop state of `chunk`: emitted chunks and the pending buffer. -/
structure ChunkAcc where
  chunks : List TranscriptChunk
  current_texts : List String
  current_start : ℚ
  current_end : ℚ

/-- One iteration of the `for segment in segments` loop of `chunk`. -/
def chunkStep (c : SemanticChunker) (now : ℕ) (segments : List RawSegment)
    (st : ChunkAcc) (seg : RawSegment) : ChunkAcc :=
  let potential_end := seg.endPos
  let potential_duration := potential_end - st.current_start
  let should_split :=
    potential_duration ≥ c.max_duration ∨
      (potential_duration ≥ c.min_duration ∧ is_natural_boundary seg.text)
  if should_split ∧ st.current_texts ≠ [] then
    let chunks' := st.chunks ++
      [c.create_chunk now (joinSpace st.current_texts)
        st.current_start st.current_end st.chunks.length]
    let overlap_start := max 0 (st.current_end - c.overlap_duration)
    let overlap_texts := overlapScan overlap_start st.current_end segments
    let texts1 := overlap_texts
    let start1 := if overlap_texts ≠ [] then overlap_start else seg.start
    { chunks := chunks'
      current_texts := texts1 ++ [seg.text]
      current_start := start1
      current_end := seg.endPos }
  else
    { st with
      current_texts := st.current_texts ++ [seg.text]
      current_end := seg.endPos }

/-- Source `SemanticChunker.chunk`.  `now` is the clock reading used for every
`datetime.utcnow()` stamp of the call. -/
def chunk (c : SemanticChunker) (now : ℕ) (segments : List RawSegment) :
    List TranscriptChunk :=
  match segments with
  | [] => []
  | s0 :: _ =>
    let st := segments.foldl (chunkStep c now segments)
      ⟨[], [], s0.start, s0.start⟩
    if st.current_texts ≠ [] then
      st.chunks ++
        [c.create_chunk now (joinSpace st.current_texts)
          st.current_start st.current_end st.chunks.length]
    else st.chunks

end SemanticChunker

/- ### Retrieval data model (models/explanation.py) -/

/-- Model of `ExplanationChunk`: the retriever's output unit. -/
structure ExplanationChunk where
  chunk_id : String
  text : String
  start_time : ℚ
  end_time : ℚ
  relevance_type : String
  similarity_score : Option ℚ
  key_terms : List String
deriving DecidableEq, Repr

/-- Default `settings.RETRIEVAL_MAX_CHUNKS`. -/
def RETRIEVAL_MAX_CHUNKS : ℤ := 8

/-- Python `set(...)` of strings, kept as a first-seen-order deduplicated
list; every consumer in the source is insensitive to set iteration order. -/
def listToSet (l : List String) : List String :=
  l.foldl (fun acc t => if acc.contains t then acc else acc ++ [t]) []

/-- Python slice `xs[:n]` for an `int` bound (a negative bound counts from
the end, clamping at zero). -/
def pySlice {α : Type} (xs : List α) (n : ℤ) : List α :=
  if 0 ≤ n then xs.take n.toNat else xs.take ((xs.length : ℤ) + n).toNat

/- ### Vector index and embedding interfaces (the black boxes of rag/) -/

/-- The vector-index responses the retriever consumes, as pure response
functions (the index itself is external state).  Argument order mirrors the
source calls: `query_by_metadata video_id is_foundational before_timestamp
key_terms limit`. -/
structure VectorStoreAPI where
  query_by_time_range : String → ℚ → ℚ → ℚ → List ExplanationChunk
  query_by_metadata : String → Bool → ℚ → List String → ℕ → List ExplanationChunk
  similarity_search : String → List ℚ → ℕ → List ExplanationChunk

/-- The embedding service, as a pure response function. -/
structure EmbeddingService where
  embed : String → List ℚ

/- ### MultiStrategyRetriever (services/rag/retriever.py) -/

/-- The retriever with its resolved configuration. -/
structure MultiStrategyRetriever where
  vector_store : VectorStoreAPI
  embedding_service : EmbeddingService
  temporal_window : ℚ
  max_per_strategy : ℕ

namespace MultiStrategyRetriever

/-- Source `_retrieve_temporal`. -/
def retrieve_temporal (r : MultiStrategyRetriever) (video_id : String)
    (timestamp : ℚ) : List ExplanationChunk :=
  r.vector_store.query_by_time_range video_id
    (max 0 (timestamp - r.temporal_window)) (timestamp + r.temporal_window) timestamp

/-- Source `_retrieve_foundational`: metadata query, local term-overlap scoring,
stable sort by `(-score, start_time)`, keep only positive scores. -/
def retrieve_foundational (r : MultiStrategyRetriever) (video_id : String)
    (terms : List String) (before_timestamp : ℚ) : List ExplanationChunk :=
  let chunks := r.vector_store.query_by_metadata video_id true before_timestamp
    terms (r.max_per_strategy * 2)
  let terms_lower := listToSet ((terms.filter (fun t => t ≠ "")).map pyLower)
  let scored_chunks := chunks.filterMap (fun c =>
    let score := terms_lower.countP (fun term => strHas (pyLower c.text) term)
    if score > 0 then some (score, c) else none)
  let sorted := scored_chunks.mergeSort (fun x y =>
    x.1 > y.1 || (x.1 = y.1 && x.2.start_time ≤ y.2.start_time))
  sorted.map (fun x => x.2)

/-- Source `_retrieve_semantic`: embed, search, drop already-retrieved ids, stable
sort by descending `similarity_score or 0`. -/
def retrieve_semantic (r : MultiStrategyRetriever) (video_id : String)
    (query : String) (exclude_ids : List String) : List ExplanationChunk :=
  let query_embedding := r.embedding_service.embed query
  let results := r.vector_store.similarity_search video_id query_embedding
    (r.max_per_strategy * 3)
  let filtered := results.filter (fun c => !exclude_ids.contains c.chunk_id)
  filtered.mergeSort (fun x y => x.similarity_score.getD 0 ≥ y.similarity_score.getD 0)

/-- One of the three selection loops of `retrieve`: append candidates whose
id is unseen, stamped with the strategy tag, recording ids as seen. -/
def pickLoop (tag : String) :
    List ExplanationChunk → List ExplanationChunk × List String →
    List ExplanationChunk × List String
  | [], st => st
  | c :: cs, (results, seen) =>
    if c.chunk_id ∈ seen then pickLoop tag cs (results, seen)
    else pickLoop tag cs
      (results ++ [{c with relevance_type := tag}], seen ++ [c.chunk_id])

/-- Python's `max_total_chunks or settings.RETRIEVAL_MAX_CHUNKS`: `None` and
`0` fall back to the default. -/
def resolveMaxTotal : Option ℤ → ℤ
  | none => RETRIEVAL_MAX_CHUNKS
  | some n => if n = 0 then RETRIEVAL_MAX_CHUNKS else n

/-- Source `retrieve`.  `max_total_chunks` is the optional caller bound. -/
def retrieve (r : MultiStrategyRetriever) (video_id : String) (timestamp : ℚ)
    (query : Option String) (max_total_chunks : Option ℤ) : List ExplanationChunk :=
  let max_total : ℤ := resolveMaxTotal max_total_chunks
  let temporal_chunks := r.retrieve_temporal video_id timestamp
  let st1 := pickLoop "temporal" (temporal_chunks.take r.max_per_strategy) ([], [])
  let st2 :=
    if temporal_chunks ≠ [] then
      let temporal_terms := listToSet (temporal_chunks.foldl
        (fun acc c => if c.key_terms ≠ [] then acc ++ c.key_terms else acc) [])
      if temporal_terms ≠ [] then
        let foundational_chunks :=
          r.retrieve_foundational video_id temporal_terms timestamp
        pickLoop "foundational" (foundational_chunks.take r.max_per_strategy) st1
      else st1
    else st1
  let context_text :=
    if temporal_chunks ≠ [] then
      joinSpace ((temporal_chunks.take 2).map (fun c => c.text))
    else ""
  let search_query := pyStrip
    ((match query with
      | none => "explain this concept"
      | some q => if q = "" then "explain this concept" else q) ++ " " ++ context_text)
  let semantic_chunks := r.retrieve_semantic video_id search_query st2.2
  let remaining_slots : ℤ := max_total - st2.1.length
  let st3 := pickLoop "semantic" (pySlice semantic_chunks remaining_slots) st2
  let sorted := st3.1.mergeSort (fun a b => a.start_time ≤ b.start_time)
  pySlice sorted max_total

end MultiStrategyRetriever

/- ### ChromaVectorStore result conversion (services/rag/vector_store.py) -/

/-- The metadata fields of a stored chunk that the conversion reads back. -/
structure ChromaMeta where
  start_time : Option ℚ
  end_time : Option ℚ
  key_terms : Option String
deriving DecidableEq, Repr

/-- A ChromaDB `collection.get` response. -/
structure ChromaGetResult where
  ids : List String
  metadatas : Option (List ChromaMeta)
  documents : Option (List String)

/-- A ChromaDB `collection.query` response for the single query embedding
(the source indexes the one-element batch with `[0]` throughout). -/
structure ChromaQueryResult where
  ids : List String
  metadatas : Option (List ChromaMeta)
  documents : Option (List String)
  distances : Option (List ℚ)

/-- Python `metadata.get(field, default)` for position `i` (`{}` when absent). -/
def metaAt : Option (List ChromaMeta) → ℕ → ChromaMeta
  | some ms, i => ms.getD i ⟨none, none, none⟩
  | none, _ => ⟨none, none, none⟩

/-- The document at position `i` (`""` when absent). -/
def docAt : Option (List String) → ℕ → String
  | some ds, i => ds.getD i ""
  | none, _ => ""

/-- Python `[t.strip() for t in s.split(",") if t.strip()]`. -/
def parseKeyTerms (s : String) : List String :=
  ((pySplitComma s).map pyStrip).filter (fun t => t ≠ "")

namespace ChromaVectorStore

/-- Source `_results_to_chunks`: convert a `collection.get` response; the similarity
score is left unset. -/
def results_to_chunks (res : ChromaGetResult) (relevance_type : String) :
    List ExplanationChunk :=
  res.ids.enum.map (fun p =>
    { chunk_id := p.2
      text := docAt res.documents p.1
      start_time := (metaAt res.metadatas p.1).start_time.getD 0
      end_time := (metaAt res.metadatas p.1).end_time.getD 0
      relevance_type := relevance_type
      similarity_score := none
      key_terms := parseKeyTerms ((metaAt res.metadatas p.1).key_terms.getD "") })

/-- Source `similarity_search`, given the collection's query response: each result
carries `similarity_score = 1 - distance` (cosine distance) and is tagged
`semantic`. -/
def similarity_search (res : ChromaQueryResult) : List ExplanationChunk :=
  res.ids.enum.map (fun p =>
    let distance := match res.distances with | some ds => ds.getD p.1 0 | none => 0
    let similarity := 1 - distance
    { chunk_id := p.2
      text := docAt res.documents p.1
      start_time := (metaAt res.metadatas p.1).start_time.getD 0
      end_time := (metaAt res.metadatas p.1).end_time.getD 0
      relevance_type := "semantic"
      similarity_score := some similarity
      key_terms := parseKeyTerms ((metaAt res.metadatas p.1).key_terms.getD "") })

end ChromaVectorStore

/- ### The chunk loop seen on its raw data

`chunkPieces` runs exactly the loop of `SemanticChunker.chunk` but keeps each
emitted chunk as its raw `(start, stop, texts)` triple; `mkChunksFrom`
replays `_create_chunk` over those triples with consecutive sequence
numbers.  `chunk_eq_mkChunksFrom` proves the two presentations equal, which
lets the invariant proofs speak about the accumulated text lists. -/

/-- The raw data of one emitted chunk. -/
structure ChunkPiece where
  start : ℚ
  stop : ℚ
  texts : List String

/-- The loop state of `chunkPieces`. -/
structure PieceAcc where
  pieces : List ChunkPiece
  current_texts : List String
  current_start : ℚ
  current_end : ℚ

namespace SemanticChunker

/-- The step `chunkStep` on raw pieces. -/
def pieceStep (c : SemanticChunker) (segments : List RawSegment)
    (st : PieceAcc) (seg : RawSegment) : PieceAcc :=
  let potential_end := seg.endPos
  let potential_duration := potential_end - st.current_start
  let should_split :=
    potential_duration ≥ c.max_duration ∨
      (potential_duration ≥ c.min_duration ∧ is_natural_boundary seg.text)
  if should_split ∧ st.current_texts ≠ [] then
    let pieces' := st.pieces ++ [⟨st.current_start, st.current_end, st.current_texts⟩]
    let overlap_start := max 0 (st.current_end - c.overlap_duration)
    let overlap_texts := overlapScan overlap_start st.current_end segments
    let start1 := if overlap_texts ≠ [] then overlap_start else seg.start
    { pieces := pieces'
      current_texts := overlap_texts ++ [seg.text]
      current_start := start1
      current_end := seg.endPos }
  else
    { st with
      current_texts := st.current_texts ++ [seg.text]
      current_end := seg.endPos }

/-- The loop of `chunk` on raw pieces. -/
def chunkPieces (c : SemanticChunker) (segments : List RawSegment) :
    List ChunkPiece :=
  match segments with
  | [] => []
  | s0 :: _ =>
    let st := segments.foldl (pieceStep c segments) ⟨[], [], s0.start, s0.start⟩
    if st.current_texts ≠ [] then
      st.pieces ++ [⟨st.current_start, st.current_end, st.current_texts⟩]
    else st.pieces

/-- Replay `_create_chunk` over raw pieces, numbering sequences from `i`. -/
def mkChunksFrom (c : SemanticChunker) (now : ℕ) : ℕ → List ChunkPiece → List TranscriptChunk
  | _, [] => []
  | i, p :: ps =>
    c.create_chunk now (joinSpace p.texts) p.start p.stop i :: mkChunksFrom c now (i + 1) ps

theorem length_mkChunksFrom (c : SemanticChunker) (now : ℕ) :
    ∀ (i : ℕ) (ps : List ChunkPiece), (mkChunksFrom c now i ps).length = ps.length := by
  intro i ps
  induction ps generalizing i with
  | nil => rfl
  | cons p ps ih => simp [mkChunksFrom, ih]

theorem mkChunksFrom_append (c : SemanticChunker) (now : ℕ) :
    ∀ (ps : List ChunkPiece) (i : ℕ) (p : ChunkPiece),
    mkChunksFrom c now i (ps ++ [p]) =
      mkChunksFrom c now i ps ++
        [c.create_chunk now (joinSpace p.texts) p.start p.stop (i + ps.length)] := by
  intro ps
  induction ps with
  | nil => intro i p; simp [mkChunksFrom]
  | cons q ps ih =>
    intro i p
    simp only [List.cons_append, mkChunksFrom, List.append_eq, List.length_cons, ih]
    have h1 : i + 1 + ps.length = i + (ps.length + 1) := by omega
    rw [h1]

theorem chunkStep_mk (c : SemanticChunker) (now : ℕ) (segs : List RawSegment)
    (ps : List ChunkPiece) (ts : List String) (cs ce : ℚ) (seg : RawSegment) :
    chunkStep c now segs ⟨mkChunksFrom c now 0 ps, ts, cs, ce⟩ seg =
      (let st := pieceStep c segs ⟨ps, ts, cs, ce⟩ seg
       (⟨mkChunksFrom c now 0 st.pieces, st.current_texts,
         st.current_start, st.current_end⟩ : ChunkAcc)) := by
  simp only [chunkStep, pieceStep]
  split_ifs with h h2 <;>
    simp only [ChunkAcc.mk.injEq, mkChunksFrom_append, length_mkChunksFrom,
      Nat.zero_add, and_true, true_and, and_self]

theorem foldl_chunkStep_mk (c : SemanticChunker) (now : ℕ) (segs : List RawSegment) :
    ∀ (l : List RawSegment) (ps : List ChunkPiece) (ts : List String) (cs ce : ℚ),
    List.foldl (chunkStep c now segs) ⟨mkChunksFrom c now 0 ps, ts, cs, ce⟩ l =
      (let st := List.foldl (pieceStep c segs) ⟨ps, ts, cs, ce⟩ l
       (⟨mkChunksFrom c now 0 st.pieces, st.current_texts,
         st.current_start, st.current_end⟩ : ChunkAcc)) := by
  intro l
  induction l with
  | nil => intro ps ts cs ce; rfl
  | cons seg rest ih =>
    intro ps ts cs ce
    simp only [List.foldl_cons]
    rw [chunkStep_mk]
    exact ih _ _ _ _

theorem chunk_eq_mkChunksFrom (c : SemanticChunker) (now : ℕ) (segs : List RawSegment) :
    c.chunk now segs = mkChunksFrom c now 0 (chunkPieces c segs) := by
  cases segs with
  | nil => rfl
  | cons s0 rest =>
    simp only [chunk, chunkPieces]
    have h0 : (⟨[], [], s0.start, s0.start⟩ : ChunkAcc) =
        ⟨mkChunksFrom c now 0 [], [], s0.start, s0.start⟩ := rfl
    rw [h0, foldl_chunkStep_mk]
    set st := List.foldl (pieceStep c (s0 :: rest)) ⟨[], [], s0.start, s0.start⟩ (s0 :: rest)
    by_cases h : st.current_texts ≠ []
    · rw [if_pos h, if_pos h, mkChunksFrom_append, length_mkChunksFrom, Nat.zero_add]
    · rw [if_neg h, if_neg h]

end SemanticChunker

/- ### Decimal rendering: value round-trip and underscore-freeness -/

/-- The numeric value of a digit list (inverse of `natDigits`). -/
def digitsVal (l : List Char) : ℕ := l.foldl (fun a c => a * 10 + (c.toNat - 48)) 0

theorem digitsVal_append (l : List Char) (c : Char) :
    digitsVal (l ++ [c]) = digitsVal l * 10 + (c.toNat - 48) := by
  simp [digitsVal, List.foldl_append]

theorem digitChar_toNat : ∀ d : ℕ, d < 10 → (Nat.digitChar d).toNat - 48 = d := by decide

theorem digitsVal_natDigitsAux : ∀ (fuel n : ℕ), n < fuel →
    digitsVal (natDigitsAux fuel n) = n := by
  intro fuel
  induction fuel with
  | zero => intro n hn; omega
  | succ f ih =>
    intro n hn
    by_cases h : n < 10
    · simp only [natDigitsAux, if_pos h, digitsVal, List.foldl_cons, List.foldl_nil,
        Nat.zero_mul, Nat.zero_add]
      exact digitChar_toNat n h
    · have hpos : 0 < n := by omega
      have hlt : n / 10 < n := Nat.div_lt_self hpos (by omega)
      have hf : n / 10 < f := by omega
      simp only [natDigitsAux, if_neg h, digitsVal_append, ih _ hf,
        digitChar_toNat (n % 10) (Nat.mod_lt _ (by omega))]
      omega

theorem digitsVal_natDigits (n : ℕ) : digitsVal (natDigits n) = n :=
  digitsVal_natDigitsAux (n + 1) n (by omega)

theorem natDigits_inj {m n : ℕ} (h : natDigits m = natDigits n) : m = n := by
  rw [← digitsVal_natDigits m, ← digitsVal_natDigits n, h]

theorem digitChar_ne_underscore : ∀ d : ℕ, d < 10 → Nat.digitChar d ≠ '_' := by decide

theorem natDigitsAux_no_underscore : ∀ (fuel n : ℕ), '_' ∉ natDigitsAux fuel n := by
  intro fuel
  induction fuel with
  | zero => intro n; simp [natDigitsAux]
  | succ f ih =>
    intro n
    by_cases h : n < 10
    · simp only [natDigitsAux, if_pos h, List.mem_singleton]
      exact fun he => digitChar_ne_underscore n h he.symm
    · simp only [natDigitsAux, if_neg h, List.mem_append, List.mem_singleton]
      rintro (hm | hm)
      · exact ih _ hm
      · exact digitChar_ne_underscore (n % 10) (Nat.mod_lt _ (by omega)) hm.symm

theorem natDigits_no_underscore (n : ℕ) : '_' ∉ natDigits n :=
  natDigitsAux_no_underscore (n + 1) n

theorem natStr_data (n : ℕ) : (natStr n).data = natDigits n := rfl

theorem fmtTenths_no_underscore (q : ℚ) : '_' ∉ (fmtTenths q).data := by
  unfold fmtTenths
  simp only [String.data_append, List.append_assoc, List.mem_append, natStr_data]
  rintro (h | h | h | h)
  · split_ifs at h
    · exact absurd h (by decide)
    · exact absurd h (by decide)
  · exact natDigits_no_underscore _ h
  · exact absurd h (by decide)
  · exact natDigits_no_underscore _ h

theorem eq_of_append_underscore :
    ∀ (a1 a2 b1 b2 : List Char), '_' ∉ a1 → '_' ∉ a2 →
    a1 ++ '_' :: b1 = a2 ++ '_' :: b2 → a1 = a2 ∧ b1 = b2 := by
  intro a1
  induction a1 with
  | nil =>
    intro a2 b1 b2 _ h2 he
    cases a2 with
    | nil => simpa using he
    | cons y ys =>
      simp only [List.nil_append, List.cons_append, List.cons.injEq] at he
      exact absurd (show '_' ∈ y :: ys by rw [he.1]; exact List.mem_cons_self y ys) h2
  | cons x xs ih =>
    intro a2 b1 b2 h1 h2 he
    cases a2 with
    | nil =>
      simp only [List.nil_append, List.cons_append, List.cons.injEq] at he
      exact absurd (show '_' ∈ x :: xs by rw [← he.1]; exact List.mem_cons_self x xs) h1
    | cons y ys =>
      simp only [List.cons_append, List.cons.injEq] at he
      have h1' : '_' ∉ xs := fun hm => h1 (List.mem_cons_of_mem x hm)
      have h2' : '_' ∉ ys := fun hm => h2 (List.mem_cons_of_mem y hm)
      obtain ⟨ha, hb⟩ := ih ys b1 b2 h1' h2' he.2
      exact ⟨by rw [he.1, ha], hb⟩

theorem mkChunkId_inj_seq {v : String} {s1 s2 : ℚ} {n1 n2 : ℕ}
    (h : mkChunkId v s1 n1 = mkChunkId v s2 n2) : n1 = n2 := by
  unfold mkChunkId at h
  have hd := congrArg String.data h
  simp only [String.data_append, List.append_assoc] at hd
  have hd2 := List.append_cancel_left hd
  have hu : ("_" : String).data = ['_'] := rfl
  simp only [hu, List.singleton_append, List.cons.injEq, true_and, natStr_data] at hd2
  have hsplit := eq_of_append_underscore (fmtTenths s1).data (fmtTenths s2).data
    (natDigits n1) (natDigits n2) (fmtTenths_no_underscore s1) (fmtTenths_no_underscore s2) hd2
  exact natDigits_inj hsplit.2

/- ### Per-chunk facts derived from the replayed loop -/

namespace SemanticChunker

theorem mkChunksFrom_getElem? (c : SemanticChunker) (now : ℕ) :
    ∀ (ps : List ChunkPiece) (i j : ℕ) (ch : TranscriptChunk),
    (mkChunksFrom c now i ps)[j]? = some ch → ch.sequence = i + j := by
  intro ps
  induction ps with
  | nil => intro i j ch h; simp [mkChunksFrom] at h
  | cons p ps ih =>
    intro i j ch h
    cases j with
    | zero =>
      simp only [mkChunksFrom, List.getElem?_cons_zero, Option.some.injEq] at h
      rw [← h]
      rfl
    | succ j =>
      simp only [mkChunksFrom, List.getElem?_cons_succ] at h
      have := ih (i + 1) j ch h
      omega

theorem mkChunksFrom_shape (c : SemanticChunker) (now : ℕ) :
    ∀ (ps : List ChunkPiece) (i : ℕ), ∀ ch ∈ mkChunksFrom c now i ps,
    i ≤ ch.sequence ∧ ch.chunk_id = mkChunkId c.video_id ch.start_time ch.sequence ∧
      ch.duration = ch.end_time - ch.start_time := by
  intro ps
  induction ps with
  | nil => intro i ch h; simp [mkChunksFrom] at h
  | cons p ps ih =>
    intro i ch hch
    rcases List.mem_cons.mp hch with h | h
    · subst h
      exact ⟨Nat.le_refl i, rfl, rfl⟩
    · obtain ⟨h1, h2, h3⟩ := ih (i + 1) ch h
      exact ⟨by omega, h2, h3⟩

theorem mkChunksFrom_ids_pairwise (c : SemanticChunker) (now : ℕ) :
    ∀ (ps : List ChunkPiece) (i : ℕ),
    List.Pairwise (fun a b => a ≠ b) ((mkChunksFrom c now i ps).map (fun ch => ch.chunk_id)) := by
  intro ps
  induction ps with
  | nil => intro i; simp [mkChunksFrom]
  | cons p ps ih =>
    intro i
    simp only [mkChunksFrom, List.map_cons, List.pairwise_cons]
    refine ⟨?_, ih (i + 1)⟩
    intro a ha heq
    rcases List.mem_map.mp ha with ⟨ch, hch, hid⟩
    obtain ⟨hle, hshape, _⟩ := mkChunksFrom_shape c now ps (i + 1) ch hch
    have hhead : (c.create_chunk now (joinSpace p.texts) p.start p.stop i).chunk_id
        = mkChunkId c.video_id p.start i := rfl
    have hids : mkChunkId c.video_id p.start i
        = mkChunkId c.video_id ch.start_time ch.sequence := by
      rw [← hhead, heq, ← hid, hshape]
    have hseq : i = ch.sequence := mkChunkId_inj_seq hids
    omega

/-- The running invariant used for the first emitted chunk: while nothing has
been emitted, `current_start` is still the first fragment's start and a
non-empty buffer has `current_end` at least that start. -/
def PieceInv (s0 : ℚ) (st : PieceAcc) : Prop :=
  (∀ p, st.pieces.head? = some p → p.start ≤ p.stop) ∧
  (st.pieces = [] → st.current_start = s0 ∧ (st.current_texts ≠ [] → s0 ≤ st.current_end))

theorem pieceStep_inv (c : SemanticChunker) (segs : List RawSegment) (s0 : ℚ)
    (st : PieceAcc) (seg : RawSegment) (hseg : s0 ≤ seg.start ∧ 0 ≤ seg.duration)
    (h : PieceInv s0 st) : PieceInv s0 (pieceStep c segs st seg) := by
  obtain ⟨h1, h2⟩ := h
  simp only [pieceStep]
  split_ifs with hs hov
  · refine ⟨?_, by simp⟩
    intro p hp
    cases hpieces : st.pieces with
    | nil =>
      rw [hpieces] at hp
      simp only [List.nil_append, List.head?_cons, Option.some.injEq] at hp
      obtain ⟨hcs, hce⟩ := h2 hpieces
      rw [← hp]
      exact hcs ▸ hce hs.2
    | cons q qs =>
      rw [hpieces] at hp
      simp only [List.cons_append, List.head?_cons, Option.some.injEq] at hp
      exact hp ▸ h1 q (by rw [hpieces]; rfl)
  · refine ⟨?_, by simp⟩
    intro p hp
    cases hpieces : st.pieces with
    | nil =>
      rw [hpieces] at hp
      simp only [List.nil_append, List.head?_cons, Option.some.injEq] at hp
      obtain ⟨hcs, hce⟩ := h2 hpieces
      rw [← hp]
      exact hcs ▸ hce hs.2
    | cons q qs =>
      rw [hpieces] at hp
      simp only [List.cons_append, List.head?_cons, Option.some.injEq] at hp
      exact hp ▸ h1 q (by rw [hpieces]; rfl)
  · refine ⟨h1, ?_⟩
    intro hpieces
    obtain ⟨hcs, _⟩ := h2 hpieces
    refine ⟨hcs, fun _ => ?_⟩
    show s0 ≤ seg.endPos
    have ha : s0 ≤ seg.start := hseg.1
    have hb : 0 ≤ seg.duration := hseg.2
    unfold RawSegment.endPos
    linarith

theorem foldl_pieceStep_inv (c : SemanticChunker) (segs : List RawSegment) (s0 : ℚ) :
    ∀ (l : List RawSegment) (st : PieceAcc),
    (∀ seg ∈ l, s0 ≤ seg.start ∧ 0 ≤ seg.duration) → PieceInv s0 st →
    PieceInv s0 (List.foldl (pieceStep c segs) st l) := by
  intro l
  induction l with
  | nil => intro st _ h; exact h
  | cons seg rest ih =>
    intro st hl h
    simp only [List.foldl_cons]
    exact ih _ (fun x hx => hl x (List.mem_cons_of_mem seg hx))
      (pieceStep_inv c segs s0 st seg (hl seg (List.mem_cons_self seg rest)) h)

theorem chunkPieces_head_le (c : SemanticChunker) (segs : List RawSegment)
    (hwf : WellFormedSegs segs) :
    ∀ p, (chunkPieces c segs).head? = some p → p.start ≤ p.stop := by
  cases hsegs : segs with
  | nil => intro p hp; simp [chunkPieces] at hp
  | cons s0 rest =>
    intro p hp
    have hall : ∀ seg ∈ s0 :: rest, s0.start ≤ seg.start ∧ 0 ≤ seg.duration := by
      intro seg hseg
      constructor
      · rcases List.mem_cons.mp hseg with h | h
        · rw [h]
        · have hp : List.Pairwise (fun a b : RawSegment => a.start ≤ b.start) (s0 :: rest) :=
            hsegs ▸ hwf.2
          exact List.rel_of_pairwise_cons hp h
      · exact hwf.1 seg (hsegs ▸ hseg)
    have hinv : PieceInv s0.start
        (List.foldl (pieceStep c (s0 :: rest)) ⟨[], [], s0.start, s0.start⟩ (s0 :: rest)) := by
      refine foldl_pieceStep_inv c (s0 :: rest) s0.start (s0 :: rest) _ hall ?_
      exact ⟨by intro q hq; simp at hq, fun _ => ⟨rfl, by intro h; simp at h⟩⟩
    revert hp
    simp only [chunkPieces]
    set st := List.foldl (pieceStep c (s0 :: rest)) ⟨[], [], s0.start, s0.start⟩ (s0 :: rest)
    by_cases hts : st.current_texts ≠ []
    · rw [if_pos hts]
      intro hp
      cases hpieces : st.pieces with
      | nil =>
        rw [hpieces] at hp
        simp only [List.nil_append, List.head?_cons, Option.some.injEq] at hp
        obtain ⟨hcs, hce⟩ := hinv.2 hpieces
        rw [← hp]
        exact hcs ▸ hce hts
      | cons q qs =>
        rw [hpieces] at hp
        simp only [List.cons_append, List.head?_cons, Option.some.injEq] at hp
        exact hp ▸ hinv.1 q (by rw [hpieces]; rfl)
    · rw [if_neg hts]
      exact hinv.1 p

/- ### Text preservation through the loop (for coverage) -/

/-- A segment's text is already recorded in the state: in an emitted piece
or in the pending buffer. -/
def coveredBy (st : PieceAcc) (s : RawSegment) : Prop :=
  (∃ p ∈ st.pieces, s.text ∈ p.texts) ∨ s.text ∈ st.current_texts

theorem pieceStep_covered_pres (c : SemanticChunker) (segs : List RawSegment)
    (st : PieceAcc) (seg x : RawSegment) (h : coveredBy st x) :
    coveredBy (pieceStep c segs st seg) x := by
  simp only [pieceStep]
  split_ifs with hs hov
  · rcases h with ⟨p, hp, ht⟩ | ht
    · exact Or.inl ⟨p, List.mem_append_left _ hp, ht⟩
    · exact Or.inl ⟨⟨st.current_start, st.current_end, st.current_texts⟩,
        List.mem_append_right _ (List.mem_singleton_self _), ht⟩
  · rcases h with ⟨p, hp, ht⟩ | ht
    · exact Or.inl ⟨p, List.mem_append_left _ hp, ht⟩
    · exact Or.inl ⟨⟨st.current_start, st.current_end, st.current_texts⟩,
        List.mem_append_right _ (List.mem_singleton_self _), ht⟩
  · rcases h with ⟨p, hp, ht⟩ | ht
    · exact Or.inl ⟨p, hp, ht⟩
    · exact Or.inr (List.mem_append_left _ ht)

theorem pieceStep_covered_self (c : SemanticChunker) (segs : List RawSegment)
    (st : PieceAcc) (seg : RawSegment) : coveredBy (pieceStep c segs st seg) seg := by
  simp only [pieceStep]
  split_ifs with hs hov <;>
    exact Or.inr (List.mem_append_right _ (List.mem_singleton_self _))

theorem foldl_covered (c : SemanticChunker) (segs : List RawSegment) :
    ∀ (l : List RawSegment) (st : PieceAcc) (x : RawSegment),
    (x ∈ l ∨ coveredBy st x) → coveredBy (List.foldl (pieceStep c segs) st l) x := by
  intro l
  induction l with
  | nil =>
    intro st x h
    rcases h with h | h
    · simp at h
    · exact h
  | cons seg rest ih =>
    intro st x h
    simp only [List.foldl_cons]
    rcases h with h | h
    · rcases List.mem_cons.mp h with h | h
      · exact ih _ x (Or.inr (h ▸ pieceStep_covered_self c segs st seg))
      · exact ih _ x (Or.inl h)
    · exact ih _ x (Or.inr (pieceStep_covered_pres c segs st seg x h))

theorem chunkPieces_covers (c : SemanticChunker) (segs : List RawSegment)
    (seg : RawSegment) (hseg : seg ∈ segs) :
    ∃ p ∈ chunkPieces c segs, seg.text ∈ p.texts := by
  cases hsegs : segs with
  | nil => rw [hsegs] at hseg; simp at hseg
  | cons s0 rest =>
    have hcov : coveredBy
        (List.foldl (pieceStep c (s0 :: rest)) ⟨[], [], s0.start, s0.start⟩ (s0 :: rest)) seg :=
      foldl_covered c (s0 :: rest) (s0 :: rest) _ seg (Or.inl (hsegs ▸ hseg))
    simp only [chunkPieces]
    set st := List.foldl (pieceStep c (s0 :: rest)) ⟨[], [], s0.start, s0.start⟩ (s0 :: rest)
    rcases hcov with ⟨p, hp, ht⟩ | ht
    · by_cases hts : st.current_texts ≠ []
      · rw [if_pos hts]
        exact ⟨p, List.mem_append_left _ hp, ht⟩
      · rw [if_neg hts]
        exact ⟨p, hp, ht⟩
    · have hts : st.current_texts ≠ [] := by
        intro hnil
        rw [hnil] at ht
        simp at ht
      rw [if_pos hts]
      exact ⟨⟨st.current_start, st.current_end, st.current_texts⟩,
        List.mem_append_right _ (List.mem_singleton_self _), ht⟩

theorem mem_mkChunksFrom_of_mem (c : SemanticChunker) (now : ℕ) :
    ∀ (ps : List ChunkPiece) (i : ℕ) (p : ChunkPiece), p ∈ ps →
    ∃ ch ∈ mkChunksFrom c now i ps, ch.text = pyStrip (joinSpace p.texts) := by
  intro ps
  induction ps with
  | nil => intro i p h; simp at h
  | cons q ps ih =>
    intro i p hp
    rcases List.mem_cons.mp hp with h | h
    · exact ⟨c.create_chunk now (joinSpace q.texts) q.start q.stop i,
        List.mem_cons_self _ _, by rw [h]; rfl⟩
    · obtain ⟨ch, hch, htext⟩ := ih (i + 1) p h
      exact ⟨ch, List.mem_cons_of_mem _ hch, htext⟩

theorem joinSpace_mem_infix :
    ∀ (ts : List String) (t : String), t ∈ ts →
    ∃ pre post, (joinSpace ts).data = pre ++ t.data ++ post := by
  intro ts
  induction ts with
  | nil => intro t h; simp at h
  | cons u us ih =>
    intro t ht
    rcases List.mem_cons.mp ht with h | h
    · cases us with
      | nil =>
        exact ⟨[], [], by rw [h]; simp [joinSpace]⟩
      | cons v vs =>
        refine ⟨[], (" " ++ joinSpace (v :: vs)).data, ?_⟩
        subst h
        show (t ++ " " ++ joinSpace (v :: vs)).data = [] ++ t.data ++ (" " ++ joinSpace (v :: vs)).data
        simp [String.data_append]
    · cases us with
      | nil => simp at h
      | cons v vs =>
        obtain ⟨pre, post, hpre⟩ := ih t h
        refine ⟨(u ++ " ").data ++ pre, post, ?_⟩
        show (u ++ " " ++ joinSpace (v :: vs)).data = (u ++ " ").data ++ pre ++ t.data ++ post
        simp only [String.data_append, hpre, List.append_assoc]

/-- Erase the clock stamp (for clock-independence statements). -/
def eraseCreated (tc : TranscriptChunk) : TranscriptChunk := { tc with created_at := 0 }

theorem mkChunksFrom_erase (c : SemanticChunker) (t1 t2 : ℕ) :
    ∀ (ps : List ChunkPiece) (i : ℕ),
    (mkChunksFrom c t1 i ps).map eraseCreated = (mkChunksFrom c t2 i ps).map eraseCreated := by
  intro ps
  induction ps with
  | nil => intro i; rfl
  | cons p ps ih =>
    intro i
    simp only [mkChunksFrom, List.map_cons, ih (i + 1), List.cons.injEq, and_true]
    rfl

end SemanticChunker

/- ### Retrieval lemmas -/

namespace MultiStrategyRetriever

theorem pySlice_subset {α : Type} (xs : List α) (n : ℤ) : ∀ x ∈ pySlice xs n, x ∈ xs := by
  intro x hx
  unfold pySlice at hx
  split_ifs at hx <;> exact List.take_subset _ _ hx

theorem pickLoop_inv (tag : String) :
    ∀ (l : List ExplanationChunk) (results : List ExplanationChunk) (seen : List String),
    ((results.map (fun c => c.chunk_id)).Nodup ∧ ∀ c ∈ results, c.chunk_id ∈ seen) →
    (((pickLoop tag l (results, seen)).1.map (fun c => c.chunk_id)).Nodup ∧
      ∀ c ∈ (pickLoop tag l (results, seen)).1, c.chunk_id ∈ (pickLoop tag l (results, seen)).2) := by
  intro l
  induction l with
  | nil => intro results seen h; exact h
  | cons c cs ih =>
    intro results seen h
    simp only [pickLoop]
    by_cases hc : c.chunk_id ∈ seen
    · rw [if_pos hc]
      exact ih results seen h
    · rw [if_neg hc]
      apply ih
      constructor
      · rw [List.map_append, List.nodup_append]
        refine ⟨h.1, by simp, ?_⟩
        intro a ha hb
        simp only [List.map_cons, List.map_nil, List.mem_singleton] at hb
        rcases List.mem_map.mp ha with ⟨x, hx, hneq⟩
        exact hc (by rw [← hb, ← hneq]; exact h.2 x hx)
      · intro x hx
        rcases List.mem_append.mp hx with hx | hx
        · exact List.mem_append_left _ (h.2 x hx)
        · simp only [List.mem_singleton] at hx
          rw [hx]
          exact List.mem_append_right _ (by simp)

theorem pickLoop_mem (tag : String) :
    ∀ (l : List ExplanationChunk) (st : List ExplanationChunk × List String)
      (x : ExplanationChunk), x ∈ (pickLoop tag l st).1 →
      x ∈ st.1 ∨ ∃ cand ∈ l, x = { cand with relevance_type := tag } := by
  intro l
  induction l with
  | nil => intro st x hx; exact Or.inl hx
  | cons c cs ih =>
    intro st x hx
    obtain ⟨results, seen⟩ := st
    simp only [pickLoop] at hx
    by_cases hc : c.chunk_id ∈ seen
    · rw [if_pos hc] at hx
      rcases ih _ x hx with h | ⟨cand, hcand, hxeq⟩
      · exact Or.inl h
      · exact Or.inr ⟨cand, List.mem_cons_of_mem _ hcand, hxeq⟩
    · rw [if_neg hc] at hx
      rcases ih _ x hx with h | ⟨cand, hcand, hxeq⟩
      · rcases List.mem_append.mp h with h | h
        · exact Or.inl h
        · simp only [List.mem_singleton] at h
          exact Or.inr ⟨c, List.mem_cons_self _ _, h⟩
      · exact Or.inr ⟨cand, List.mem_cons_of_mem _ hcand, hxeq⟩

theorem retrieve_foundational_subset (r : MultiStrategyRetriever) (vid : String)
    (terms : List String) (bt : ℚ) :
    ∀ x ∈ r.retrieve_foundational vid terms bt,
      x ∈ r.vector_store.query_by_metadata vid true bt terms (r.max_per_strategy * 2) := by
  intro x hx
  simp only [retrieve_foundational] at hx
  rcases List.mem_map.mp hx with ⟨⟨sc, ch⟩, hmem, hx⟩
  have hmem2 := List.mem_mergeSort.mp hmem
  rcases List.mem_filterMap.mp hmem2 with ⟨cand, hcand, heq⟩
  split_ifs at heq
  · simp only [Option.some.injEq, Prod.mk.injEq] at heq
    rw [← hx, ← heq.2]
    exact hcand

/-- Membership in the nested Strategy-2 conditional. -/
theorem mem_st2_cases {P Q : Prop} [Decidable P] [Decidable Q]
    (st1 : List ExplanationChunk × List String) (l : List ExplanationChunk)
    (x : ExplanationChunk)
    (hx : x ∈ (if P then (if Q then pickLoop "foundational" l st1 else st1) else st1).1) :
    x ∈ st1.1 ∨ ∃ cand ∈ l, x = { cand with relevance_type := "foundational" } := by
  split_ifs at hx with h1 h2
  · exact pickLoop_mem _ _ _ _ hx
  · exact Or.inl hx
  · exact Or.inl hx

/-- Where every element of a retrieval result comes from: it is tagged
`temporal` or `semantic`, or it is a `foundational`-tagged copy of a chunk
returned by `_retrieve_foundational` (hence by the metadata query with
`before_timestamp = timestamp`). -/
theorem retrieve_mem_origin (r : MultiStrategyRetriever) (vid : String) (ts : ℚ)
    (q : Option String) (mopt : Option ℤ) (c : ExplanationChunk)
    (hc : c ∈ r.retrieve vid ts q mopt) :
    c.relevance_type = "temporal" ∨ c.relevance_type = "semantic" ∨
      (c.relevance_type = "foundational" ∧
        ∃ terms cand, cand ∈ r.retrieve_foundational vid terms ts ∧
          c.end_time = cand.end_time) := by
  simp only [retrieve] at hc
  have hc2 := List.mem_mergeSort.mp (pySlice_subset _ _ _ hc)
  rcases pickLoop_mem "semantic" _ _ _ hc2 with hst2 | ⟨cand, _, hxeq⟩
  · rcases mem_st2_cases _ _ _ hst2 with hst1 | ⟨cand, hcand, hxeq⟩
    · rcases pickLoop_mem "temporal" _ _ _ hst1 with hnil | ⟨cand, _, hxeq⟩
      · simp at hnil
      · exact Or.inl (by rw [hxeq])
    · refine Or.inr (Or.inr ⟨by rw [hxeq], ?_⟩)
      have hsub := List.take_subset _ _ hcand
      exact ⟨_, cand, hsub, by rw [hxeq]⟩
  · exact Or.inr (Or.inl (by rw [hxeq]))

end MultiStrategyRetriever

/- ### Concrete fixtures -/

/-- The spec scenario's chunker: `min=5, max=15, overlap=2` (target 30 unused). -/
def scenarioChunker : SemanticChunker := ⟨"vid", 30, 5, 15, 2⟩

/-- The spec scenario's fragments. -/
def scenarioSegs : List RawSegment :=
  [⟨"Intro", 0, 3⟩, ⟨"ML basics", 3, 4⟩, ⟨"Neural is a type of AI", 7, 5⟩,
   ⟨"applies data", 12, 4⟩, ⟨"Now let" ++ apos ++ "s see CNNs", 16, 3⟩]

/-- A zero-length first fragment followed by a distant one. -/
def cexC1Segs : List RawSegment := [⟨"a", 0, 0⟩, ⟨"b", 20, 1⟩]

/-- One fragment (for the clock counterexample). -/
def cexC4Segs : List RawSegment := [⟨"a", 0, 1⟩]

/-- A long fragment whose interval outruns the next fragment's end. -/
def cexC5Segs : List RawSegment := [⟨"a", 0, 10⟩, ⟨"b", 1, 2⟩]

/- ### C1 -/

/-- C1 (amended): for well-formed input every chunk returned by
`SemanticChunker.chunk` satisfies `0 ≤ sequence` and
`duration = end_time - start_time`, and the FIRST chunk satisfies
`start_time ≤ end_time`.  The stronger bounds of the original claim
(`start_time < end_time`, `duration ∈ [min_duration, max_duration]` off the
final chunk, and `duration ≤ max_duration` everywhere) do not hold. -/
theorem C1_chunk_invariants (c : SemanticChunker) (now : ℕ) (segs : List RawSegment)
    (hwf : WellFormedSegs segs) :
    (∀ ch ∈ c.chunk now segs,
      0 ≤ ch.sequence ∧ ch.duration = ch.end_time - ch.start_time) ∧
    (∀ ch, (c.chunk now segs).head? = some ch → ch.start_time ≤ ch.end_time) := by
  constructor
  · intro ch hch
    rw [SemanticChunker.chunk_eq_mkChunksFrom] at hch
    obtain ⟨_, _, hdur⟩ := SemanticChunker.mkChunksFrom_shape c now _ 0 ch hch
    exact ⟨Nat.zero_le _, hdur⟩
  · intro ch hch
    rw [SemanticChunker.chunk_eq_mkChunksFrom] at hch
    cases hps : SemanticChunker.chunkPieces c segs with
    | nil => rw [hps] at hch; simp [SemanticChunker.mkChunksFrom] at hch
    | cons p ps =>
      rw [hps] at hch
      simp only [SemanticChunker.mkChunksFrom, List.head?_cons, Option.some.injEq] at hch
      have hle := SemanticChunker.chunkPieces_head_le c segs hwf p (by rw [hps]; rfl)
      rw [← hch]
      exact hle

unseal Rat.add Rat.sub Rat.mul Rat.inv in
/-- C1 counterexample: the well-formed input `cexC1Segs` produces a chunk with
`start_time = end_time` (so `start_time < end_time` fails) and a chunk whose
duration exceeds the configured `max_duration`. -/
theorem C1_cex :
    WellFormedSegs cexC1Segs ∧
    (∃ ch ∈ scenarioChunker.chunk 0 cexC1Segs, ¬ ch.start_time < ch.end_time) ∧
    (∃ ch ∈ scenarioChunker.chunk 0 cexC1Segs,
      ch.duration > scenarioChunker.max_duration) := by
  refine ⟨by decide, by decide, by decide⟩

/-- C1 witness: the invariants instantiated on the scenario input. -/
theorem C1_witness :
    WellFormedSegs scenarioSegs ∧
    (∀ ch ∈ scenarioChunker.chunk 0 scenarioSegs,
      0 ≤ ch.sequence ∧ ch.duration = ch.end_time - ch.start_time) ∧
    (∀ ch, (scenarioChunker.chunk 0 scenarioSegs).head? = some ch →
      ch.start_time ≤ ch.end_time) :=
  ⟨by decide, (C1_chunk_invariants scenarioChunker 0 scenarioSegs (by decide)).1,
    (C1_chunk_invariants scenarioChunker 0 scenarioSegs (by decide)).2⟩

/- ### C3 -/

unseal Rat.add Rat.sub Rat.mul Rat.inv in
/-- C3 counterexample: on the spec scenario the chunker does NOT produce
exactly 2 chunks. -/
theorem C3_cex : ¬ (scenarioChunker.chunk 0 scenarioSegs).length = 2 := by decide

unseal Rat.add Rat.sub Rat.mul Rat.inv in
/-- C3 (amended): the scenario input splits twice — once forced because
"applies data" pushes the accumulated duration to `16 ≥ max_duration = 15`
(that fragment opens no topic marker), and once at the "Now let's" marker —
yielding 3 chunks with boundaries `(0,12), (12,16), (16,19)`; the first
chunk is foundational. -/
theorem C3_scenario :
    (scenarioChunker.chunk 0 scenarioSegs).length = 3 ∧
    (scenarioChunker.chunk 0 scenarioSegs).map
      (fun ch => (ch.start_time, ch.end_time)) = [(0, 12), (12, 16), (16, 19)] ∧
    (scenarioChunker.chunk 0 scenarioSegs).head?.map
      (fun ch => ch.is_foundational) = some true ∧
    SemanticChunker.is_natural_boundary ("Now let" ++ apos ++ "s see CNNs") = true ∧
    SemanticChunker.is_natural_boundary "applies data" = false ∧
    ((16 : ℚ) - 0 ≥ scenarioChunker.max_duration) := by
  refine ⟨by decide, by decide, by decide, by decide, by decide, by decide⟩

/- ### C4 -/

unseal Rat.add Rat.sub Rat.mul Rat.inv in
/-- C4 counterexample: two calls on identical input and configuration but at
different clock instants differ (in the `created_at` field), so the output is
not bit-identical in every field. -/
theorem C4_cex :
    scenarioChunker.chunk 0 cexC4Segs ≠ scenarioChunker.chunk 1 cexC4Segs := by decide

/-- C4 (amended): `chunk` is deterministic in everything except the
`created_at` wall-clock stamp: two calls on identical input and configuration
agree on every other field of every chunk (ids, boundaries, texts, key
terms, foundational flags). -/
theorem C4_deterministic (c : SemanticChunker) (t1 t2 : ℕ) (segs : List RawSegment) :
    (c.chunk t1 segs).map SemanticChunker.eraseCreated =
      (c.chunk t2 segs).map SemanticChunker.eraseCreated := by
  rw [SemanticChunker.chunk_eq_mkChunksFrom, SemanticChunker.chunk_eq_mkChunksFrom]
  exact SemanticChunker.mkChunksFrom_erase c t1 t2 _ 0

/- ### C5 -/

/-- C5 (amended): no fragment's text is dropped — every input fragment's text
occurs verbatim as one of the accumulated components of some emitted piece,
the corresponding chunk's `text` is the stripped space-join of exactly those
components, and the fragment's text is a contiguous substring of that join.
The interval-coverage half of the original claim fails. -/
theorem C5_text_coverage (c : SemanticChunker) (now : ℕ) (segs : List RawSegment)
    (seg : RawSegment) (hseg : seg ∈ segs) :
    ∃ p ∈ SemanticChunker.chunkPieces c segs,
      seg.text ∈ p.texts ∧
      (∃ ch ∈ c.chunk now segs, ch.text = pyStrip (joinSpace p.texts)) ∧
      ∃ pre post, (joinSpace p.texts).data = pre ++ seg.text.data ++ post := by
  obtain ⟨p, hp, ht⟩ := SemanticChunker.chunkPieces_covers c segs seg hseg
  refine ⟨p, hp, ht, ?_, SemanticChunker.joinSpace_mem_infix p.texts seg.text ht⟩
  rw [SemanticChunker.chunk_eq_mkChunksFrom]
  exact SemanticChunker.mem_mkChunksFrom_of_mem c now _ 0 p hp

unseal Rat.add Rat.sub Rat.mul Rat.inv in
/-- C5 counterexample: for the well-formed input `cexC5Segs` the time `5`
lies inside the first fragment's interval `[0, 10)` but inside no returned
chunk's interval, so the chunks do not cover every fragment's interval. -/
theorem C5_cex :
    WellFormedSegs cexC5Segs ∧
    ∃ seg ∈ cexC5Segs, seg.start ≤ 5 ∧ (5 : ℚ) < seg.endPos ∧
      ∀ ch ∈ scenarioChunker.chunk 0 cexC5Segs,
        ¬ (ch.start_time ≤ 5 ∧ (5 : ℚ) < ch.end_time) := by
  refine ⟨by decide, ⟨"a", 0, 10⟩, by decide, by decide, by decide, by decide⟩

unseal Rat.add Rat.sub Rat.mul Rat.inv in
/-- C5 witness: the preservation statement applied to the third scenario
fragment. -/
theorem C5_witness :
    (⟨"Neural is a type of AI", 7, 5⟩ : RawSegment) ∈ scenarioSegs ∧
    ∃ p ∈ SemanticChunker.chunkPieces scenarioChunker scenarioSegs,
      (⟨"Neural is a type of AI", 7, 5⟩ : RawSegment).text ∈ p.texts ∧
      (∃ ch ∈ scenarioChunker.chunk 0 scenarioSegs,
        ch.text = pyStrip (joinSpace p.texts)) ∧
      ∃ pre post, (joinSpace p.texts).data =
        pre ++ (⟨"Neural is a type of AI", 7, 5⟩ : RawSegment).text.data ++ post :=
  ⟨by decide, C5_text_coverage scenarioChunker 0 scenarioSegs _ (by decide)⟩

/- ### C10 -/

/-- C10: chunk sequence numbers equal the 0-based output position, and all
chunk ids within one call's output are pairwise distinct. -/
theorem C10_sequences_and_ids (c : SemanticChunker) (now : ℕ) (segs : List RawSegment) :
    (∀ (i : ℕ) (ch : TranscriptChunk),
      (c.chunk now segs)[i]? = some ch → ch.sequence = i) ∧
    List.Pairwise (fun a b => a ≠ b)
      ((c.chunk now segs).map (fun ch => ch.chunk_id)) := by
  rw [SemanticChunker.chunk_eq_mkChunksFrom]
  constructor
  · intro i ch h
    have := SemanticChunker.mkChunksFrom_getElem? c now _ 0 i ch h
    omega
  · exact SemanticChunker.mkChunksFrom_ids_pairwise c now _ 0

unseal Rat.add Rat.sub Rat.mul Rat.inv in
/-- C10 witness: on the scenario output, position 1 indeed holds sequence 1,
and the three chunk ids are pairwise distinct. -/
theorem C10_witness :
    (∃ ch, (scenarioChunker.chunk 0 scenarioSegs)[1]? = some ch ∧ ch.sequence = 1) ∧
    List.Pairwise (fun a b => a ≠ b)
      ((scenarioChunker.chunk 0 scenarioSegs).map (fun ch => ch.chunk_id)) := by
  constructor
  · have hlen : 1 < (scenarioChunker.chunk 0 scenarioSegs).length := by decide
    refine ⟨(scenarioChunker.chunk 0 scenarioSegs).get ⟨1, hlen⟩, ?_, ?_⟩
    · exact List.getElem?_eq_getElem hlen
    · exact (C10_sequences_and_ids scenarioChunker 0 scenarioSegs).1 1 _
        (List.getElem?_eq_getElem hlen)
  · exact (C10_sequences_and_ids scenarioChunker 0 scenarioSegs).2

/- ### C2 -/

namespace MultiStrategyRetriever

/-- The dedup invariant carried by the three selection loops. -/
def PickInv (st : List ExplanationChunk × List String) : Prop :=
  (st.1.map (fun c => c.chunk_id)).Nodup ∧ ∀ c ∈ st.1, c.chunk_id ∈ st.2

theorem pickLoop_pickInv (tag : String) (l : List ExplanationChunk)
    (st : List ExplanationChunk × List String) (h : PickInv st) :
    PickInv (pickLoop tag l st) := by
  obtain ⟨a, b⟩ := st
  exact pickLoop_inv tag l a b h

theorem st2_pickInv {P Q : Prop} [Decidable P] [Decidable Q]
    (st1 : List ExplanationChunk × List String) (l : List ExplanationChunk)
    (h : PickInv st1) :
    PickInv (if P then (if Q then pickLoop "foundational" l st1 else st1) else st1) := by
  split_ifs
  · exact pickLoop_pickInv _ _ _ h
  · exact h
  · exact h

theorem retrieve_eq_slice (r : MultiStrategyRetriever) (vid : String) (ts : ℚ)
    (q : Option String) (mopt : Option ℤ) :
    ∃ st3 : List ExplanationChunk × List String, PickInv st3 ∧
      r.retrieve vid ts q mopt =
        pySlice (st3.1.mergeSort (fun a b => a.start_time ≤ b.start_time))
          (resolveMaxTotal mopt) := by
  refine ⟨_, ?_, rfl⟩
  exact pickLoop_pickInv _ _ _
    (st2_pickInv _ _ (pickLoop_pickInv _ _ _ ⟨by simp, by simp⟩))

end MultiStrategyRetriever

/-- C2: every retrieval call with a positive `max_total` returns at most
`max_total` chunks, sorted by non-decreasing `start_time`, with pairwise
distinct chunk ids — for any index and embedding responses. -/
theorem C2_retrieve_contract (r : MultiStrategyRetriever) (vid : String) (ts : ℚ)
    (q : Option String) (m : ℤ) (hm : 0 < m) :
    ((r.retrieve vid ts q (some m)).length : ℤ) ≤ m ∧
    List.Pairwise (fun a b : ExplanationChunk => a.start_time ≤ b.start_time)
      (r.retrieve vid ts q (some m)) ∧
    ((r.retrieve vid ts q (some m)).map (fun c => c.chunk_id)).Nodup := by
  obtain ⟨st3, hinv, heq⟩ := MultiStrategyRetriever.retrieve_eq_slice r vid ts q (some m)
  have hres : MultiStrategyRetriever.resolveMaxTotal (some m) = m := by
    simp only [MultiStrategyRetriever.resolveMaxTotal]
    rw [if_neg (by omega)]
  rw [heq, hres]
  set M := st3.1.mergeSort (fun a b => decide (a.start_time ≤ b.start_time)) with hM
  have hslice : pySlice M m = M.take m.toNat := by
    unfold pySlice
    rw [if_pos (le_of_lt hm)]
  rw [hslice]
  have htrans : ∀ a b c : ExplanationChunk,
      decide (a.start_time ≤ b.start_time) = true →
      decide (b.start_time ≤ c.start_time) = true →
      decide (a.start_time ≤ c.start_time) = true := by
    intro a b c h1 h2
    simp only [decide_eq_true_eq] at h1 h2 ⊢
    exact le_trans h1 h2
  have htotal : ∀ a b : ExplanationChunk,
      (decide (a.start_time ≤ b.start_time) || decide (b.start_time ≤ a.start_time)) = true := by
    intro a b
    simp only [Bool.or_eq_true, decide_eq_true_eq]
    exact le_total _ _
  refine ⟨?_, ?_, ?_⟩
  · have h1 : (M.take m.toNat).length ≤ m.toNat := by
      simp [List.length_take]
    have h2 : (m.toNat : ℤ) = m := Int.toNat_of_nonneg (le_of_lt hm)
    omega
  · have hs := @List.sorted_mergeSort ExplanationChunk
      (fun a b => decide (a.start_time ≤ b.start_time)) htrans htotal st3.1
    have hs2 : List.Pairwise (fun a b : ExplanationChunk => a.start_time ≤ b.start_time) M :=
      hs.imp (fun h => by simpa using h)
    exact hs2.sublist (List.take_sublist _ _)
  · have hperm := List.mergeSort_perm st3.1
      (fun a b => decide (a.start_time ≤ b.start_time))
    have hmap : List.Perm (st3.1.map (fun c => c.chunk_id)) (M.map (fun c => c.chunk_id)) :=
      (hperm.map _).symm
    have hnodupM : (M.map (fun c => c.chunk_id)).Nodup := hmap.nodup hinv.1
    rw [List.map_take]
    exact (List.take_sublist _ _).nodup hnodupM

/- retrieval fixtures -/

/-- A vector store whose every response is empty. -/
def wStore : VectorStoreAPI :=
  ⟨fun _ _ _ _ => [], fun _ _ _ _ _ => [], fun _ _ _ => []⟩

/-- A trivial embedding service. -/
def wEmb : EmbeddingService := ⟨fun _ => []⟩

/-- A retriever over the empty store. -/
def wRetr : MultiStrategyRetriever := ⟨wStore, wEmb, 60, 3⟩

/-- A temporal chunk with no key terms. -/
def wChunkT : ExplanationChunk := ⟨"t1", "some text", 50, 60, "unknown", none, []⟩

/-- A store whose time-range query returns one chunk without key terms. -/
def wStore9 : VectorStoreAPI :=
  ⟨fun _ _ _ _ => [wChunkT], fun _ _ _ _ _ => [], fun _ _ _ => []⟩

/-- A retriever over `wStore9`. -/
def wRetr9 : MultiStrategyRetriever := ⟨wStore9, wEmb, 60, 3⟩

/-- C2 witness: the contract applied at `max_total = 3` on a concrete store. -/
theorem C2_witness :
    (0 : ℤ) < 3 ∧
    (((wRetr.retrieve "v" 10 none (some 3)).length : ℤ) ≤ 3 ∧
      List.Pairwise (fun a b : ExplanationChunk => a.start_time ≤ b.start_time)
        (wRetr.retrieve "v" 10 none (some 3)) ∧
      ((wRetr.retrieve "v" 10 none (some 3)).map (fun c => c.chunk_id)).Nodup) :=
  ⟨by decide, C2_retrieve_contract wRetr "v" 10 none 3 (by decide)⟩

/- ### C6 -/

/-- C6: if the index's metadata query honors its `before_timestamp` filter,
every `foundational`-tagged element of a retrieval result has
`end_time < timestamp`. -/
theorem C6_foundational_precedence (r : MultiStrategyRetriever) (vid : String)
    (ts : ℚ) (q : Option String) (mopt : Option ℤ)
    (hidx : ∀ (v : String) (bt : ℚ) (terms : List String) (lim : ℕ),
      ∀ ch ∈ r.vector_store.query_by_metadata v true bt terms lim, ch.end_time < bt) :
    ∀ c ∈ r.retrieve vid ts q mopt, c.relevance_type = "foundational" → c.end_time < ts := by
  intro c hc htag
  rcases MultiStrategyRetriever.retrieve_mem_origin r vid ts q mopt c hc with
    h | h | ⟨_, terms, cand, hcand, hend⟩
  · exact absurd (htag ▸ h) (by decide)
  · exact absurd (htag ▸ h) (by decide)
  · rw [hend]
    exact hidx vid ts terms _ cand
      (MultiStrategyRetriever.retrieve_foundational_subset r vid terms ts cand hcand)

/-- C6 witness: the precedence statement on the empty store (whose metadata
query vacuously honors the filter). -/
theorem C6_witness :
    (∀ (v : String) (bt : ℚ) (terms : List String) (lim : ℕ),
      ∀ ch ∈ wStore.query_by_metadata v true bt terms lim, ch.end_time < bt) ∧
    (∀ c ∈ wRetr.retrieve "v" 10 none (some 3),
      c.relevance_type = "foundational" → c.end_time < 10) :=
  ⟨by intro v bt terms lim ch hch; exact (List.not_mem_nil ch hch).elim,
    C6_foundational_precedence wRetr "v" 10 none (some 3)
      (by intro v bt terms lim ch hch; exact (List.not_mem_nil ch hch).elim)⟩

/- ### C7 -/

/-- Evaluation of `listToSet` on the empty accumulation. -/
theorem listToSet_nil : listToSet [] = [] := rfl

/-- C7: when the temporal time-range query comes back empty, Strategy 2 is
skipped entirely — the output does not depend on the metadata-query component
of the index at all — and every returned chunk is tagged `semantic`. -/
theorem C7_empty_temporal_skips_foundational (r : MultiStrategyRetriever)
    (g : String → Bool → ℚ → List String → ℕ → List ExplanationChunk)
    (vid : String) (ts : ℚ) (q : Option String) (mopt : Option ℤ)
    (hempty : r.retrieve_temporal vid ts = []) :
    ({ r with vector_store := { r.vector_store with query_by_metadata := g } }
        : MultiStrategyRetriever).retrieve vid ts q mopt =
      r.retrieve vid ts q mopt ∧
    ∀ c ∈ r.retrieve vid ts q mopt, c.relevance_type = "semantic" := by
  have htemp' : ({ r with vector_store := { r.vector_store with query_by_metadata := g } }
      : MultiStrategyRetriever).retrieve_temporal vid ts = r.retrieve_temporal vid ts := rfl
  have hsem : ∀ (s : String) (ex : List String),
      ({ r with vector_store := { r.vector_store with query_by_metadata := g } }
        : MultiStrategyRetriever).retrieve_semantic vid s ex =
        r.retrieve_semantic vid s ex := fun _ _ => rfl
  constructor
  · simp only [MultiStrategyRetriever.retrieve, htemp', hempty, hsem, List.take_nil,
      MultiStrategyRetriever.pickLoop, ne_eq, not_true_eq_false, if_false,
      List.foldl_nil, listToSet_nil]
  · intro c hc
    simp only [MultiStrategyRetriever.retrieve, hempty, List.take_nil,
      MultiStrategyRetriever.pickLoop, ne_eq, not_true_eq_false, if_false,
      List.foldl_nil, listToSet_nil] at hc
    have hc2 := List.mem_mergeSort.mp
      (MultiStrategyRetriever.pySlice_subset _ _ _ hc)
    rcases MultiStrategyRetriever.pickLoop_mem "semantic" _ _ _ hc2 with h | ⟨cand, _, hxeq⟩
    · simp at h
    · rw [hxeq]

/-- C7 witness: on the empty store the temporal query is empty, the output is
metadata-oracle-independent, and all results are semantic. -/
theorem C7_witness :
    wRetr.retrieve_temporal "v" 10 = [] ∧
    ({ wRetr with vector_store :=
        { wRetr.vector_store with query_by_metadata := fun _ _ _ _ _ => [wChunkT] } }
      : MultiStrategyRetriever).retrieve "v" 10 none (some 3) =
      wRetr.retrieve "v" 10 none (some 3) ∧
    ∀ c ∈ wRetr.retrieve "v" 10 none (some 3), c.relevance_type = "semantic" :=
  ⟨rfl,
    (C7_empty_temporal_skips_foundational wRetr (fun _ _ _ _ _ => [wChunkT])
      "v" 10 none (some 3) rfl).1,
    (C7_empty_temporal_skips_foundational wRetr (fun _ _ _ _ _ => [wChunkT])
      "v" 10 none (some 3) rfl).2⟩

/- ### C9 -/

/-- Folding the key-term accumulation over chunks without key terms adds
nothing. -/
theorem foldl_keyterms_nil :
    ∀ (l : List ExplanationChunk), (∀ c ∈ l, c.key_terms = []) →
    ∀ acc : List String,
      l.foldl (fun acc c => if c.key_terms ≠ [] then acc ++ c.key_terms else acc) acc = acc := by
  intro l
  induction l with
  | nil => intro _ acc; rfl
  | cons c cs ih =>
    intro h acc
    simp only [List.foldl_cons]
    have hc : c.key_terms = [] := h c (List.mem_cons_self c cs)
    rw [if_neg (by simp [hc])]
    exact ih (fun x hx => h x (List.mem_cons_of_mem _ hx)) acc

/-- C9: when the temporal query returns chunks but none carries a non-empty
`key_terms` list, the foundational strategy is skipped entirely — the output
does not depend on the metadata-query component — and no result is tagged
`foundational`. -/
theorem C9_no_terms_skips_foundational (r : MultiStrategyRetriever)
    (g : String → Bool → ℚ → List String → ℕ → List ExplanationChunk)
    (vid : String) (ts : ℚ) (q : Option String) (mopt : Option ℤ)
    (_hne : r.retrieve_temporal vid ts ≠ [])
    (hterms : ∀ c ∈ r.retrieve_temporal vid ts, c.key_terms = []) :
    ({ r with vector_store := { r.vector_store with query_by_metadata := g } }
        : MultiStrategyRetriever).retrieve vid ts q mopt =
      r.retrieve vid ts q mopt ∧
    ∀ c ∈ r.retrieve vid ts q mopt, c.relevance_type ≠ "foundational" := by
  have htemp' : ({ r with vector_store := { r.vector_store with query_by_metadata := g } }
      : MultiStrategyRetriever).retrieve_temporal vid ts = r.retrieve_temporal vid ts := rfl
  have hsem : ∀ (s : String) (ex : List String),
      ({ r with vector_store := { r.vector_store with query_by_metadata := g } }
        : MultiStrategyRetriever).retrieve_semantic vid s ex =
        r.retrieve_semantic vid s ex := fun _ _ => rfl
  have hfold := foldl_keyterms_nil (r.retrieve_temporal vid ts) hterms []
  constructor
  · simp only [MultiStrategyRetriever.retrieve, htemp', hsem, hfold, listToSet_nil,
      ne_eq, not_true_eq_false, if_false, ite_self]
  · intro c hc
    simp only [MultiStrategyRetriever.retrieve, hfold, listToSet_nil,
      ne_eq, not_true_eq_false, if_false, ite_self] at hc
    have hc2 := List.mem_mergeSort.mp
      (MultiStrategyRetriever.pySlice_subset _ _ _ hc)
    rcases MultiStrategyRetriever.pickLoop_mem "semantic" _ _ _ hc2 with h | ⟨cand, _, hxeq⟩
    · rcases MultiStrategyRetriever.pickLoop_mem "temporal" _ _ _ h with h2 | ⟨cand, _, hxeq⟩
      · simp at h2
      · rw [hxeq]
        show ("temporal" : String) ≠ "foundational"
        decide
    · rw [hxeq]
      show ("semantic" : String) ≠ "foundational"
      decide

/-- C9 witness: one temporal chunk with empty key terms; the metadata oracle
is irrelevant and nothing is tagged foundational. -/
theorem C9_witness :
    wRetr9.retrieve_temporal "v" 10 ≠ [] ∧
    (∀ c ∈ wRetr9.retrieve_temporal "v" 10, c.key_terms = []) ∧
    ({ wRetr9 with vector_store :=
        { wRetr9.vector_store with query_by_metadata := fun _ _ _ _ _ => [wChunkT] } }
      : MultiStrategyRetriever).retrieve "v" 10 none (some 3) =
      wRetr9.retrieve "v" 10 none (some 3) ∧
    ∀ c ∈ wRetr9.retrieve "v" 10 none (some 3), c.relevance_type ≠ "foundational" :=
  ⟨by decide, by decide,
    (C9_no_terms_skips_foundational wRetr9 (fun _ _ _ _ _ => [wChunkT])
      "v" 10 none (some 3) (by decide) (by decide)).1,
    (C9_no_terms_skips_foundational wRetr9 (fun _ _ _ _ _ => [wChunkT])
      "v" 10 none (some 3) (by decide) (by decide)).2⟩

/- ### C8 -/

/-- C8 (amended): chunks converted by `_results_to_chunks` (the temporal and
foundational paths) always carry `similarity_score = None`; every
`similarity_search` result is tagged `semantic` and carries
`similarity_score = 1 - distance`, which lies in `[-1, 1]` whenever the
reported cosine distance lies in `[0, 2]` — it is NOT confined to `[0, 1]`. -/
theorem C8_similarity_scores :
    (∀ (res : ChromaGetResult) (tag : String),
      ∀ c ∈ ChromaVectorStore.results_to_chunks res tag, c.similarity_score = none) ∧
    (∀ qres : ChromaQueryResult, ∀ c ∈ ChromaVectorStore.similarity_search qres,
      c.relevance_type = "semantic" ∧
      ∃ d : ℚ, c.similarity_score = some (1 - d) ∧
        (0 ≤ d → d ≤ 2 → -1 ≤ 1 - d ∧ 1 - d ≤ 1)) := by
  constructor
  · intro res tag c hc
    simp only [ChromaVectorStore.results_to_chunks] at hc
    rcases List.mem_map.mp hc with ⟨p, _, hp⟩
    rw [← hp]
  · intro qres c hc
    simp only [ChromaVectorStore.similarity_search] at hc
    rcases List.mem_map.mp hc with ⟨p, _, hp⟩
    refine ⟨by rw [← hp], ?_⟩
    refine ⟨(match qres.distances with | some ds => ds.getD p.1 0 | none => 0), by rw [← hp], ?_⟩
    intro h0 h2
    constructor <;> linarith

/-- The collection response used to refute the `[0,1]` score range: a single
hit at cosine distance `3/2`. -/
def cexQueryRes : ChromaQueryResult := ⟨["c1"], none, none, some [3/2]⟩

unseal Rat.add Rat.sub Rat.mul Rat.inv in
/-- C8 counterexample: at cosine distance `3/2` the computed similarity is
`-1/2`, which is set but lies outside `[0, 1]`. -/
theorem C8_cex :
    ∃ c ∈ ChromaVectorStore.similarity_search cexQueryRes,
      c.similarity_score = some (-(1/2)) ∧
      ¬ ((0 : ℚ) ≤ -(1/2) ∧ (-(1/2) : ℚ) ≤ 1) := by decide

unseal Rat.add Rat.sub Rat.mul Rat.inv in
/-- C8 witness: the score facts applied to concrete responses. -/
theorem C8_witness :
    ((⟨"c1", "", 0, 0, "temporal", none, []⟩ : ExplanationChunk) ∈
        ChromaVectorStore.results_to_chunks ⟨["c1"], none, none⟩ "temporal" ∧
      (⟨"c1", "", 0, 0, "temporal", none, []⟩ : ExplanationChunk).similarity_score = none) ∧
    ((⟨"c1", "", 0, 0, "semantic", some (-(1/2)), []⟩ : ExplanationChunk) ∈
        ChromaVectorStore.similarity_search cexQueryRes ∧
      ∃ d : ℚ,
        (⟨"c1", "", 0, 0, "semantic", some (-(1/2)), []⟩ : ExplanationChunk).similarity_score =
          some (1 - d) ∧
        (0 ≤ d → d ≤ 2 → -1 ≤ 1 - d ∧ 1 - d ≤ 1)) :=
  ⟨⟨by decide,
    C8_similarity_scores.1 ⟨["c1"], none, none⟩ "temporal" _ (by decide)⟩,
   ⟨by decide,
    (C8_similarity_scores.2 cexQueryRes _ (by decide)).2⟩⟩
